import Mathlib

set_option maxRecDepth 100000

/-!
# merkle-sync: Merkle tree engine, shallow embedding

Shallow embedding of the Merkle-tree engine of
`src/connectors/postgresql/postgresql_connector.go` (the only subsystem with
algorithmic content, per the specification): SHA-256 hashing with domain
separation, tree construction, proof generation, proof verification, and tree
diffing.  Bytes are modelled as `Nat` (each `< 256` for real inputs), machine
words as `Nat` reduced mod `2^32`, Go strings as Lean `String` (the strings the
engine hashes are ASCII: fixed tags and lowercase hex digests, where Go's
`[]byte(s)` agrees with code points).
-/

namespace MerkleSync

/-! ## SHA-256 (FIPS 180-4), executable over byte lists -/

/-- Truncate to a 32-bit word. -/
def w32 (x : Nat) : Nat := x % 4294967296

/-- Right rotation of a 32-bit word by `n`. -/
def rotr (n x : Nat) : Nat := w32 ((x >>> n) ||| (x <<< (32 - n)))

def bigSigma0 (x : Nat) : Nat := (rotr 2 x) ^^^ (rotr 13 x) ^^^ (rotr 22 x)

def bigSigma1 (x : Nat) : Nat := (rotr 6 x) ^^^ (rotr 11 x) ^^^ (rotr 25 x)

def smallSigma0 (x : Nat) : Nat := (rotr 7 x) ^^^ (rotr 18 x) ^^^ (x >>> 3)

def smallSigma1 (x : Nat) : Nat := (rotr 17 x) ^^^ (rotr 19 x) ^^^ (x >>> 10)

def ch (e f g : Nat) : Nat := (e &&& f) ^^^ ((e ^^^ 4294967295) &&& g)

def maj (a b c : Nat) : Nat := (a &&& b) ^^^ (a &&& c) ^^^ (b &&& c)

/-- The 64 round constants (FIPS 180-4 section 4.2.2, in decimal). -/
def sha256K : List Nat :=
  [1116352408, 1899447441, 3049323471, 3921009573, 961987163, 1508970993,
   2453635748, 2870763221, 3624381080, 310598401, 607225278, 1426881987,
   1925078388, 2162078206, 2614888103, 3248222580, 3835390401, 4022224774,
   264347078, 604807628, 770255983, 1249150122, 1555081692, 1996064986,
   2554220882, 2821834349, 2952996808, 3210313671, 3336571891, 3584528711,
   113926993, 338241895, 666307205, 773529912, 1294757372, 1396182291,
   1695183700, 1986661051, 2177026350, 2456956037, 2730485921, 2820302411,
   3259730800, 3345764771, 3516065817, 3600352804, 4094571909, 275423344,
   430227734, 506948616, 659060556, 883997877, 958139571, 1322822218,
   1537002063, 1747873779, 1955562222, 2024104815, 2227730452, 2361852424,
   2428436474, 2756734187, 3204031479, 3329325298]

/-- Working state: eight 32-bit words. -/
structure Sha256State where
  a : Nat
  b : Nat
  c : Nat
  d : Nat
  e : Nat
  f : Nat
  g : Nat
  h : Nat

def sha256Init : Sha256State :=
  ⟨1779033703, 3144134277, 1013904242, 2773480762,
   1359893119, 2600822924, 528734635, 1541459225⟩

/-- One compression round; `kw` is the round constant plus the schedule word. -/
def sha256Round (s : Sha256State) (kw : Nat) : Sha256State :=
  let t1 := w32 (s.h + bigSigma1 s.e + ch s.e s.f s.g + kw)
  let t2 := w32 (bigSigma0 s.a + maj s.a s.b s.c)
  ⟨w32 (t1 + t2), s.a, s.b, s.c, w32 (s.d + t1), s.e, s.f, s.g⟩

/-- Group bytes into big-endian 32-bit words. -/
def toWords : List Nat → List Nat
  | b0 :: b1 :: b2 :: b3 :: rest =>
      ((b0 <<< 24) ||| (b1 <<< 16) ||| (b2 <<< 8) ||| b3) :: toWords rest
  | _ => []

/-- Extend the 16 chunk words to the 64-word message schedule. -/
def extendW (ws : List Nat) : List Nat :=
  (List.range 48).foldl
    (fun acc _ =>
      let n := acc.length
      acc ++ [w32 (smallSigma1 (acc.getD (n - 2) 0) + acc.getD (n - 7) 0 +
                   smallSigma0 (acc.getD (n - 15) 0) + acc.getD (n - 16) 0)])
    ws

/-- Process one 64-byte chunk. -/
def processChunk (s : Sha256State) (chunk : List Nat) : Sha256State :=
  let ws := extendW (toWords chunk)
  let t := (sha256K.zip ws).foldl (fun st p => sha256Round st (w32 (p.1 + p.2))) s
  ⟨w32 (s.a + t.a), w32 (s.b + t.b), w32 (s.c + t.c), w32 (s.d + t.d),
   w32 (s.e + t.e), w32 (s.f + t.f), w32 (s.g + t.g), w32 (s.h + t.h)⟩

/-- The message length as eight big-endian bytes (length in bits). -/
def lenBytes (n : Nat) : List Nat :=
  [(n >>> 56) &&& 255, (n >>> 48) &&& 255, (n >>> 40) &&& 255, (n >>> 32) &&& 255,
   (n >>> 24) &&& 255, (n >>> 16) &&& 255, (n >>> 8) &&& 255, n &&& 255]

/-- SHA-256 padding: `0x80`, zeros to 56 mod 64, then the 64-bit bit length. -/
def sha256Pad (msg : List Nat) : List Nat :=
  let r := (msg.length + 9) % 64
  let zeros := if r == 0 then 0 else 64 - r
  msg ++ [0x80] ++ List.replicate zeros 0 ++ lenBytes (8 * msg.length)

/-- Split into 64-byte chunks.  `fuel` is structural only; `fuel = l.length`
always suffices since every step drops at least one element. -/
def chunks64Fuel : Nat → List Nat → List (List Nat)
  | _, [] => []
  | 0, _ => []
  | fuel + 1, l => l.take 64 :: chunks64Fuel fuel (l.drop 64)

def chunks64 (l : List Nat) : List (List Nat) := chunks64Fuel l.length l

/-- A 32-bit word as four big-endian bytes. -/
def wordBytes (w : Nat) : List Nat :=
  [(w >>> 24) &&& 255, (w >>> 16) &&& 255, (w >>> 8) &&& 255, w &&& 255]

/-- SHA-256 digest (32 bytes) of a byte list. -/
def sha256 (msg : List Nat) : List Nat :=
  let s := (chunks64 (sha256Pad msg)).foldl processChunk sha256Init
  wordBytes s.a ++ wordBytes s.b ++ wordBytes s.c ++ wordBytes s.d ++
  wordBytes s.e ++ wordBytes s.f ++ wordBytes s.g ++ wordBytes s.h

/-! ## Hex encoding (Go `hex.EncodeToString`: lowercase, no separators) -/

/-- Lowercase hex digit for a nibble. -/
def hexDigit (n : Nat) : Char := if n < 10 then Char.ofNat (48 + n) else Char.ofNat (87 + n)

def hexBytes : List Nat → List Char
  | [] => []
  | b :: rest => hexDigit (b / 16) :: hexDigit (b % 16) :: hexBytes rest

def hexEncode (bs : List Nat) : String := String.mk (hexBytes bs)

/-- Go's `[]byte(s)` for the ASCII strings the engine hashes (fixed tags and
lowercase hex digests), where UTF-8 bytes coincide with code points. -/
def strBytes (s : String) : List Nat := s.toList.map Char.toNat

/-! ## The engine's two hash functions (source: `HashData`, `HashConcat`) -/

/-- `HashData`: SHA-256 of `"LEAF:"` prepended to the payload, hex-encoded. -/
def HashData (data : List Nat) : String :=
  hexEncode (sha256 (strBytes "LEAF:" ++ data))

/-- `HashConcat`: SHA-256 of `"INTERNAL:"` prepended to the two hex digest
strings in order, hex-encoded. -/
def HashConcat (hash1 hash2 : String) : String :=
  hexEncode (sha256 (strBytes "INTERNAL:" ++ strBytes hash1 ++ strBytes hash2))

/-! ## Data model (source: `MerkleNode`, `MerkleTree`, `DataBlock`) -/

/-- `DataBlock` (Go's `Metadata` map modelled as an association list). -/
structure DataBlock where
  id : String
  encryptedData : List Nat
  tableName : String
  operation : String
  timestamp : Int
  metadata : List (String × String)
deriving DecidableEq

/-- A Merkle tree node.  Go's `MerkleNode` is heap-allocated and compared by
pointer (`findParent`, the `current != mt.Root` loop guard); `idx` records each
leaf's allocation identity (its position in the block list), which makes
structural equality on the nodes of a built tree coincide with Go's pointer
equality: distinct nodes of a built tree cover distinct leaf positions.  The
odd-level duplication in `buildTree` reuses the same node value exactly as Go
reuses the same pointer. -/
inductive MNode where
  | leaf (hash : String) (data : List Nat) (blockID : String) (idx : Nat)
  | node (hash : String) (left right : MNode)
deriving DecidableEq

def MNode.hash : MNode → String
  | .leaf h _ _ _ => h
  | .node h _ _ => h

def MNode.isLeaf : MNode → Bool
  | .leaf _ _ _ _ => true
  | .node _ _ _ => false

/-- Go's `node.Left` (`nil` on a leaf). -/
def MNode.leftChild : MNode → Option MNode
  | .leaf _ _ _ _ => none
  | .node _ l _ => some l

/-- Go's `node.Right` (`nil` on a leaf). -/
def MNode.rightChild : MNode → Option MNode
  | .leaf _ _ _ _ => none
  | .node _ _ r => some r

def MNode.size : MNode → Nat
  | .leaf _ _ _ _ => 1
  | .node _ l r => 1 + l.size + r.size

structure MerkleTree where
  root : Option MNode
  leaves : List MNode
  rootHash : String

/-! ## Tree construction (source: `NewMerkleTree`, `buildTree`) -/

/-- One level step of `buildTree`: pair consecutive nodes into parents. -/
def pairUp : List MNode → List MNode
  | l :: r :: rest => MNode.node (HashConcat l.hash r.hash) l r :: pairUp rest
  | _ => []

/-- `buildTree`'s odd-count rule: append a duplicate of the last node. -/
def evenize (nodes : List MNode) : List MNode :=
  match nodes with
  | [] => []
  | n :: rest =>
      if (n :: rest).length % 2 == 1 then (n :: rest) ++ [(n :: rest).getLast (by simp)]
      else n :: rest

/-- `buildTree`, with structural fuel: one recursive call processes one level
and at least halves a level of two or more nodes, so `fuel = nodes.length`
always suffices (`buildTreeFuel_isSome`). -/
def buildTreeFuel : Nat → List MNode → Option MNode
  | _, [] => none
  | _, [n] => some n
  | 0, _ => none
  | fuel + 1, n0 :: n1 :: rest => buildTreeFuel fuel (pairUp (evenize (n0 :: n1 :: rest)))

def buildTree (nodes : List MNode) : Option MNode := buildTreeFuel nodes.length nodes

/-- The leaf nodes `NewMerkleTree` allocates, positions from `i` upward. -/
def mkLeavesFrom : Nat → List DataBlock → List MNode
  | _, [] => []
  | i, b :: rest =>
      MNode.leaf (HashData b.encryptedData) b.encryptedData b.id i :: mkLeavesFrom (i + 1) rest

def mkLeaves (blocks : List DataBlock) : List MNode := mkLeavesFrom 0 blocks

/-- `NewMerkleTree`; the Go function returns `(tree, error)` and its error is
`nil` on every path, modelled as `Except` always taking the `.ok` branch. -/
def NewMerkleTree (blocks : List DataBlock) : Except String MerkleTree :=
  match blocks with
  | [] => .ok ⟨none, [], ""⟩
  | b :: rest =>
      let leaves := mkLeaves (b :: rest)
      let root := buildTree leaves
      .ok ⟨root, leaves, match root with | some r => r.hash | none => ""⟩

/-- The tree `NewMerkleTree` returns (total since the error is never set). -/
def newTree (blocks : List DataBlock) : MerkleTree :=
  (NewMerkleTree blocks).toOption.getD ⟨none, [], ""⟩

/-! ## Proof generation (source: `GenerateProof`, `getProofPath`, `findParent`) -/

structure ProofNode where
  hash : String
  isLeft : Bool
deriving DecidableEq

/-- `findParentRecursive`: first node in preorder having `target` as a direct
child (Go compares child pointers; on built trees structural equality of
`MNode` coincides with pointer equality, see `MNode`). -/
def findParentRecursive (current target : MNode) : Option MNode :=
  match current with
  | .leaf _ _ _ _ => none
  | .node h l r =>
      if l = target ∨ r = target then some (.node h l r)
      else
        match findParentRecursive l target with
        | some p => some p
        | none => findParentRecursive r target

/-- `findParent` (method on the tree, searching from the root). -/
def findParent (root target : MNode) : Option MNode := findParentRecursive root target

/-- The loop of `getProofPath`, with structural fuel.  Each iteration replaces
`current` by a strict ancestor, whose size is strictly larger and at most
`root.size`, so `fuel = root.size` always suffices. -/
def walkPath (root : MNode) : Nat → MNode → List ProofNode → List String →
    List ProofNode × List String
  | 0, _, acc, visited => (acc, visited)
  | fuel + 1, current, acc, visited =>
      if current = root then (acc, visited)
      else
        match findParent root current with
        | none => (acc, visited)
        | some (.leaf _ _ _ _) => (acc, visited)  -- unreachable: parents are internal
        | some (.node ph pl pr) =>
            -- isLeft := parent.Left == current; sibling is the other child;
            -- the recorded entry carries the sibling's position (!isLeft)
            let sibling := if pl = current then pr else pl
            if visited.contains sibling.hash then
              walkPath root fuel (.node ph pl pr) acc visited
            else
              walkPath root fuel (.node ph pl pr)
                (acc ++ [⟨sibling.hash, !decide (pl = current)⟩])
                (visited ++ [sibling.hash])

/-- `getProofPath`: proof entries for one leaf plus the updated visited set. -/
def getProofPath (root leaf : MNode) (visited : List String) :
    List ProofNode × List String :=
  walkPath root root.size leaf [] visited

/-- `GenerateProof`.  For each requested hash the first matching leaf is
collected (an unmatched hash is skipped); an error is raised only when the tree
has no root or no requested hash matched at all. -/
def GenerateProof (mt : MerkleTree) (leafHashes : List String) :
    Except String (List ProofNode) :=
  match mt.root with
  | none => .error "empty tree"
  | some root =>
      let leafNodes := leafHashes.filterMap fun h => mt.leaves.find? fun leaf => leaf.hash == h
      if leafNodes.isEmpty then .error "no matching leaf nodes found"
      else
        let r := leafNodes.foldl
          (fun acc leaf =>
            let p := getProofPath root leaf acc.2
            (acc.1 ++ p.1, p.2))
          ([], [])
        .ok r.1

/-! ## Proof verification (source: `VerifyProof`, `reconstructRoot`,
`reconstructRootMultiple`) -/

/-- Byte-wise lexicographic `≤` on byte sequences (Go's `string` comparison). -/
def bytesLe : List Nat → List Nat → Bool
  | [], _ => true
  | _ :: _, [] => false
  | a :: as, b :: bs => if a < b then true else if b < a then false else bytesLe as bs

/-- Go's string `<=`: byte-wise lexicographic comparison of the UTF-8 bytes
(equal to code-point order; the engine's strings are ASCII anyway). -/
def strLe (a b : String) : Bool := bytesLe (strBytes a) (strBytes b)

/-- Go's `sort.Strings`: ascending lexicographic sort.  Any sorted permutation
is the unique model of Go's sort for a total antisymmetric order. -/
def sortStrings (l : List String) : List String :=
  List.insertionSort (fun a b => strLe a b = true) l

/-- One pass of `reconstructRootMultiple`'s pairing loop: combine adjacent
pairs, an unpaired last element with itself. -/
def combineLevel : List String → List String
  | a :: b :: rest => HashConcat a b :: combineLevel rest
  | [a] => [HashConcat a a]
  | [] => []

/-- The `for len(currentLevel) > 1` loop, with structural fuel: a level of two
or more strictly shrinks, so `fuel = l.length` always suffices. -/
def reduceLevelsFuel : Nat → List String → List String
  | 0, l => l
  | fuel + 1, l =>
      match l with
      | [] => []
      | [a] => [a]
      | a :: b :: rest => reduceLevelsFuel fuel (combineLevel (a :: b :: rest))

/-- `reconstructRootMultiple`: ignores proof-node positions entirely — it
collects available hashes, keeps just the (always-available) leaf hashes,
sorts them, and pairs bottom-up. -/
def reconstructRootMultiple (leafHashes : List String) (proofPath : List ProofNode) : String :=
  let availableHashes := leafHashes ++ proofPath.map (·.hash)
  let currentLevel := leafHashes.filter fun h => availableHashes.contains h
  let sorted := sortStrings currentLevel
  match reduceLevelsFuel sorted.length sorted with
  | [a] => a
  | _ => ""

/-- `reconstructRoot`. -/
def reconstructRoot (leafHashes : List String) (proofPath : List ProofNode) : String :=
  match leafHashes with
  | [] => ""
  | [h] =>
      proofPath.foldl
        (fun currentHash pn =>
          if pn.isLeft then HashConcat pn.hash currentHash
          else HashConcat currentHash pn.hash) h
  | l => reconstructRootMultiple l proofPath

/-- `VerifyProof`; Go returns `(bool, error)`, modelled as `Except`. -/
def VerifyProof (rootHash : String) (leafHashes : List String)
    (proofPath : List ProofNode) : Except String Bool :=
  match leafHashes with
  | [] => .error "no leaf hashes provided"
  | _ :: _ =>
      let sortedLeaves := sortStrings leafHashes
      .ok (reconstructRoot sortedLeaves proofPath == rootHash)

/-! ## Tree diffing (source: `DiffTrees`, `diffNodes`) -/

structure DiffNode where
  hash : String
  isLeaf : Bool
deriving DecidableEq

/-- `diffNodes`, with structural fuel on the combined node sizes (each
recursive call strictly shrinks them, so `fuel = size₁ + size₂` suffices). -/
def diffNodesFuel : Nat → Option MNode → Option MNode → List DiffNode
  | _, none, none => []
  | _, some n1, none => [⟨n1.hash, n1.isLeaf⟩]
  | _, none, some n2 => [⟨n2.hash, n2.isLeaf⟩]
  | 0, some _, some _ => []  -- unreachable with the fuel used by DiffTrees
  | fuel + 1, some n1, some n2 =>
      if n1.hash = n2.hash then []
      else if n1.isLeaf && n2.isLeaf then
        [⟨n1.hash, true⟩, ⟨n2.hash, true⟩]
      else
        diffNodesFuel fuel n1.leftChild n2.leftChild ++
        diffNodesFuel fuel n1.rightChild n2.rightChild

/-- `DiffTrees`; the arguments are `*MerkleTree` pointers, so `none` models a
nil tree pointer (distinct from a tree whose root is nil). -/
def DiffTrees (root1 root2 : Option MerkleTree) : Except String (List DiffNode) :=
  match root1, root2 with
  | none, none => .ok []
  | none, some _ => .error "one tree is nil"
  | some _, none => .error "one tree is nil"
  | some t1, some t2 =>
      .ok (diffNodesFuel ((t1.root.elim 0 MNode.size) + (t2.root.elim 0 MNode.size))
            t1.root t2.root)

/-! ## Verification infrastructure (not part of the source; used to state and
prove properties of the embedding) -/

/-- `x` occurs as a subtree (at some position) of `t`. -/
inductive Occurs : MNode → MNode → Prop
  | refl (t : MNode) : Occurs t t
  | left {x : MNode} {h : String} {l r : MNode} : Occurs x l → Occurs x (.node h l r)
  | right {x : MNode} {h : String} {l r : MNode} : Occurs x r → Occurs x (.node h l r)

/-- Every internal node's hash is `HashConcat` of its children's hashes —
the invariant `buildTree` establishes. -/
def WellHashed : MNode → Prop
  | .leaf _ _ _ _ => True
  | .node h l r => h = HashConcat l.hash r.hash ∧ WellHashed l ∧ WellHashed r

/-- The walk of `getProofPath` with the `visited` filter removed: it records
the sibling at every step unconditionally.  `getProofPath` starting from an
empty visited set agrees with it exactly when no sibling hash repeats along
the walk. -/
def fullWalkPath (root : MNode) : Nat → MNode → List ProofNode
  | 0, _ => []
  | fuel + 1, current =>
      if current = root then []
      else
        match findParent root current with
        | none => []
        | some (.leaf _ _ _ _) => []
        | some (.node ph pl pr) =>
            let sibling := if pl = current then pr else pl
            ⟨sibling.hash, !decide (pl = current)⟩ :: fullWalkPath root fuel (.node ph pl pr)

/-- Placeholder node used only to destructure `Option`s in statements. -/
def defaultLeaf : MNode := .leaf "" [] "" 0

/-- The hash of the tree's `i`-th leaf. -/
def leafHashAt (t : MerkleTree) (i : Nat) : String := (t.leaves.getD i defaultLeaf).hash

/-- The leaf `GenerateProof` selects for a requested hash: the first leaf of
the tree whose hash matches. -/
def foundLeaf (t : MerkleTree) (h : String) : MNode :=
  (t.leaves.find? fun n => n.hash == h).getD defaultLeaf

/-- The tree's root node (trees built from a non-empty block list have one). -/
def treeRoot (t : MerkleTree) : MNode := t.root.getD defaultLeaf

/-! ## Concrete fixtures (the spec §8 example payloads `data1..data4`) -/

def blockOf (s : String) : DataBlock := ⟨s, strBytes s, "", "", 0, []⟩

def pairBlocks : List DataBlock := [blockOf "data1", blockOf "data2"]

def demo3 : List DataBlock := [blockOf "data1", blockOf "data2", blockOf "data3"]

def diffBlocks : List DataBlock := [blockOf "a", blockOf "b"]

/-! ## Order properties of the byte-wise string comparison -/

instance : IsTotal String (fun a b => strLe a b = true) :=
  ⟨by
    have key : ∀ a b : List Nat, bytesLe a b = true ∨ bytesLe b a = true := by
      intro a
      induction a with
      | nil => intro b; left; rfl
      | cons x as ih =>
        intro b
        cases b with
        | nil => right; rfl
        | cons y bs =>
          rcases Nat.lt_trichotomy x y with hlt | heq | hgt
          · left; simp [bytesLe, hlt]
          · subst heq
            rcases ih bs with h1 | h1
            · left; simp [bytesLe, h1]
            · right; simp [bytesLe, h1]
          · right; simp [bytesLe, hgt]
    intro a b
    exact key (strBytes a) (strBytes b)⟩

instance : IsTrans String (fun a b => strLe a b = true) :=
  ⟨by
    have key : ∀ a b c : List Nat,
        bytesLe a b = true → bytesLe b c = true → bytesLe a c = true := by
      intro a
      induction a with
      | nil => intro b c _ _; rfl
      | cons x as ih =>
        intro b c hab hbc
        cases b with
        | nil => simp [bytesLe] at hab
        | cons y bs =>
          cases c with
          | nil => simp [bytesLe] at hbc
          | cons z cs =>
            simp only [bytesLe] at hab hbc ⊢
            by_cases hxy : x < y
            · by_cases hyz : y < z
              · simp [Nat.lt_trans hxy hyz]
              · by_cases hzy : z < y
                · simp [bytesLe, hyz, hzy] at hbc
                · have hyz' : y = z := Nat.le_antisymm (Nat.le_of_not_lt hzy) (Nat.le_of_not_lt hyz)
                  simp [hyz' ▸ hxy]
            · by_cases hyx : y < x
              · simp [hxy, hyx] at hab
              · have hxy' : x = y := Nat.le_antisymm (Nat.le_of_not_lt hyx) (Nat.le_of_not_lt hxy)
                subst hxy'
                simp [hxy] at hab
                by_cases hyz : x < z
                · simp [hyz]
                · by_cases hzy : z < x
                  · simp [hyz, hzy] at hbc
                  · have : x = z := Nat.le_antisymm (Nat.le_of_not_lt hzy) (Nat.le_of_not_lt hyz)
                    subst this
                    simp [hxy] at hbc
                    simp [hxy, ih bs cs hab hbc]
    intro a b c
    exact key (strBytes a) (strBytes b) (strBytes c)⟩

instance : IsAntisymm String (fun a b => strLe a b = true) :=
  ⟨by
    have key : ∀ a b : List Nat, bytesLe a b = true → bytesLe b a = true → a = b := by
      intro a
      induction a with
      | nil =>
        intro b _ hba
        cases b with
        | nil => rfl
        | cons y bs => simp [bytesLe] at hba
      | cons x as ih =>
        intro b hab hba
        cases b with
        | nil => simp [bytesLe] at hab
        | cons y bs =>
          simp only [bytesLe] at hab hba
          by_cases hxy : x < y
          · simp [Nat.lt_asymm hxy, hxy] at hba
          · by_cases hyx : y < x
            · simp [hxy, hyx] at hab
            · have hxy' : x = y := Nat.le_antisymm (Nat.le_of_not_lt hyx) (Nat.le_of_not_lt hxy)
              subst hxy'
              simp [hxy] at hab hba
              rw [ih bs hab hba]
    intro a b hab hba
    have hbytes : strBytes a = strBytes b := key (strBytes a) (strBytes b) hab hba
    have hlist : a.toList = b.toList := by
      refine List.map_injective_iff.mpr ?_ hbytes
      intro c d hcd
      exact Char.ext (UInt32.toNat.inj hcd)
    exact String.toList_inj.mp hlist⟩

/-! ## Hash layer lemmas -/

theorem hexBytes_length (bs : List Nat) : (hexBytes bs).length = 2 * bs.length := by
  induction bs with
  | nil => rfl
  | cons b rest ih => simp [hexBytes, ih]; omega

theorem sha256_length (msg : List Nat) : (sha256 msg).length = 32 := by
  simp [sha256, wordBytes]

theorem hexEncode_length (bs : List Nat) : (hexEncode bs).length = 2 * bs.length := by
  have h : (hexEncode bs).length = (hexBytes bs).length := rfl
  rw [h, hexBytes_length]

theorem hexEncode_toList (bs : List Nat) : (hexEncode bs).toList = hexBytes bs := rfl

theorem HashData_length (d : List Nat) : (HashData d).length = 64 := by
  rw [HashData, hexEncode_length, sha256_length]

theorem HashConcat_length (a b : String) : (HashConcat a b).length = 64 := by
  rw [HashConcat, hexEncode_length, sha256_length]

theorem HashData_ne_empty (d : List Nat) : HashData d ≠ "" := by
  intro h
  have := HashData_length d
  rw [h] at this
  simp at this

theorem HashConcat_ne_empty (a b : String) : HashConcat a b ≠ "" := by
  intro h
  have := HashConcat_length a b
  rw [h] at this
  simp at this

theorem wordBytes_lt (w : Nat) : ∀ b ∈ wordBytes w, b < 256 := by
  intro b hb
  simp only [wordBytes, List.mem_cons, List.not_mem_nil, or_false] at hb
  rcases hb with h | h | h | h <;> subst h <;>
    exact Nat.lt_succ_of_le Nat.and_le_right

theorem sha256_mem_lt (msg : List Nat) : ∀ b ∈ sha256 msg, b < 256 := by
  intro b hb
  simp only [sha256, List.mem_append] at hb
  rcases hb with ((((((h | h) | h) | h) | h) | h) | h) | h <;> exact wordBytes_lt _ _ h

theorem hexDigit_mem (n : Nat) (h : n < 16) : hexDigit n ∈ "0123456789abcdef".toList := by
  interval_cases n <;> decide

theorem hexBytes_mem (bs : List Nat) (hb : ∀ b ∈ bs, b < 256) :
    ∀ c ∈ hexBytes bs, c ∈ "0123456789abcdef".toList := by
  induction bs with
  | nil => intro c hc; simp [hexBytes] at hc
  | cons b rest ih =>
    intro c hc
    have hblt : b < 256 := hb b (List.mem_cons_self _ _)
    simp only [hexBytes, List.mem_cons] at hc
    rcases hc with h | h | h
    · subst h
      exact hexDigit_mem _ ((Nat.div_lt_iff_lt_mul (by norm_num)).mpr (by omega))
    · subst h
      exact hexDigit_mem _ (Nat.mod_lt _ (by norm_num))
    · exact ih (fun x hx => hb x (List.mem_cons_of_mem _ hx)) c h

/-- Every character of a hex-encoded digest is a lowercase hex digit. -/
theorem hexEncode_chars (bs : List Nat) (hb : ∀ b ∈ bs, b < 256) :
    ((hexEncode bs).toList.all fun c => "0123456789abcdef".toList.contains c) = true := by
  rw [hexEncode_toList, List.all_eq_true]
  intro c hc
  exact List.elem_eq_true_of_mem (hexBytes_mem bs hb c hc)

/-! ## Tree construction lemmas -/

theorem mkLeavesFrom_length (i : Nat) (blocks : List DataBlock) :
    (mkLeavesFrom i blocks).length = blocks.length := by
  induction blocks generalizing i with
  | nil => rfl
  | cons b rest ih => simp [mkLeavesFrom, ih]

theorem mkLeavesFrom_mem : (i : Nat) → (blocks : List DataBlock) →
    ∀ n ∈ mkLeavesFrom i blocks, ∃ b j, b ∈ blocks ∧
      n = MNode.leaf (HashData b.encryptedData) b.encryptedData b.id j
  | _, [] => by intro n hn; simp [mkLeavesFrom] at hn
  | i, b :: rest => by
      intro n hn
      simp only [mkLeavesFrom, List.mem_cons] at hn
      rcases hn with h | h
      · exact ⟨b, i, List.mem_cons_self _ _, h⟩
      · obtain ⟨b', j, hb', hn'⟩ := mkLeavesFrom_mem (i + 1) rest n h
        exact ⟨b', j, List.mem_cons_of_mem _ hb', hn'⟩

theorem pairUp_length : (l : List MNode) → (pairUp l).length = l.length / 2
  | [] => rfl
  | [_] => by simp [pairUp]
  | a :: b :: rest => by
      simp only [pairUp, List.length_cons, pairUp_length rest]
      omega

theorem evenize_length (l : List MNode) : (evenize l).length = l.length + l.length % 2 := by
  cases l with
  | nil => rfl
  | cons n rest =>
    simp only [evenize, List.length_cons]
    by_cases h : (rest.length + 1) % 2 = 1
    · simp [h]
    · have h0 : (rest.length + 1) % 2 = 0 := by omega
      simp [h, h0]

theorem evenize_subset (l : List MNode) : ∀ x ∈ evenize l, x ∈ l := by
  cases l with
  | nil => intro x hx; simp [evenize] at hx
  | cons n rest =>
    intro x hx
    simp only [evenize] at hx
    by_cases h : (((n :: rest).length % 2 == 1) = true)
    · rw [if_pos h] at hx
      rcases List.mem_append.mp hx with h1 | h1
      · exact h1
      · simp only [List.mem_singleton] at h1
        subst h1
        exact List.getLast_mem _
    · rw [if_neg h] at hx
      exact hx

theorem pairUp_shape : (l : List MNode) → ∀ m ∈ pairUp l,
    ∃ a b, a ∈ l ∧ b ∈ l ∧ m = MNode.node (HashConcat a.hash b.hash) a b
  | [] => by intro m hm; simp [pairUp] at hm
  | [_] => by intro m hm; simp [pairUp] at hm
  | a :: b :: rest => by
      intro m hm
      simp only [pairUp, List.mem_cons] at hm
      rcases hm with h | h
      · exact ⟨a, b, by simp, by simp, h⟩
      · obtain ⟨x, y, hx, hy, hm'⟩ := pairUp_shape rest m h
        exact ⟨x, y, by simp [hx], by simp [hy], hm'⟩

theorem buildTreeFuel_isSome : (fuel : Nat) → (l : List MNode) → l ≠ [] →
    l.length ≤ fuel → (buildTreeFuel fuel l).isSome = true
  | _, [], h, _ => absurd rfl h
  | _, [n], _, _ => by simp [buildTreeFuel]
  | 0, _ :: _ :: _, _, hlen => by simp at hlen
  | fuel + 1, a :: b :: rest, _, hlen => by
      have h1 := pairUp_length (evenize (a :: b :: rest))
      have h2 := evenize_length (a :: b :: rest)
      have hne : pairUp (evenize (a :: b :: rest)) ≠ [] := by
        intro hnil
        rw [hnil] at h1
        simp only [List.length_nil, List.length_cons] at h1 h2
        omega
      have h3 : (pairUp (evenize (a :: b :: rest))).length ≤ fuel := by
        simp only [List.length_cons] at h1 h2 hlen ⊢
        omega
      simpa [buildTreeFuel] using buildTreeFuel_isSome fuel _ hne h3

theorem buildTreeFuel_preserve (P : MNode → Prop)
    (hstep : ∀ a b, P a → P b → P (.node (HashConcat a.hash b.hash) a b)) :
    (fuel : Nat) → (l : List MNode) → (∀ n ∈ l, P n) → ∀ r,
      buildTreeFuel fuel l = some r → P r
  | _, [], _, r => by intro hr; simp [buildTreeFuel] at hr
  | _, [n], h, r => by
      intro hr
      simp only [buildTreeFuel, Option.some.injEq] at hr
      exact hr ▸ h n (by simp)
  | 0, _ :: _ :: _, _, r => by intro hr; simp [buildTreeFuel] at hr
  | fuel + 1, a :: b :: rest, h, r => by
      intro hr
      have hnext : ∀ m ∈ pairUp (evenize (a :: b :: rest)), P m := by
        intro m hm
        obtain ⟨x, y, hx, hy, hm'⟩ := pairUp_shape _ m hm
        subst hm'
        exact hstep x y (h x (evenize_subset _ x hx)) (h y (evenize_subset _ y hy))
      exact buildTreeFuel_preserve P hstep fuel _ hnext r (by simpa [buildTreeFuel] using hr)

theorem newTree_nil : newTree [] = ⟨none, [], ""⟩ := rfl

theorem newTree_cons (b : DataBlock) (rest : List DataBlock) :
    newTree (b :: rest) =
      ⟨buildTree (mkLeaves (b :: rest)), mkLeaves (b :: rest),
        match buildTree (mkLeaves (b :: rest)) with
          | some r => r.hash
          | none => ""⟩ := rfl

/-! ## Claim theorems: hashing -/

/-- C8: `HashData` is the 32-byte SHA-256 digest of the ASCII tag `"LEAF:"`
prepended to the payload, `HashConcat` the digest of `"INTERNAL:"` prepended
to the left then the right hash, hex output is 64 lowercase hex characters
with no separators, and `HashConcat` is not commutative. -/
theorem hash_domain_separation :
    (∀ data, HashData data = hexEncode (sha256 (strBytes "LEAF:" ++ data)) ∧
      (sha256 (strBytes "LEAF:" ++ data)).length = 32 ∧
      (HashData data).length = 64 ∧
      ((HashData data).toList.all fun c => "0123456789abcdef".toList.contains c) = true) ∧
    (∀ h1 h2, HashConcat h1 h2 =
        hexEncode (sha256 (strBytes "INTERNAL:" ++ strBytes h1 ++ strBytes h2)) ∧
      (HashConcat h1 h2).length = 64 ∧
      ((HashConcat h1 h2).toList.all fun c => "0123456789abcdef".toList.contains c) = true) ∧
    (("aa" : String) ≠ "bb" ∧ HashConcat "aa" "bb" ≠ HashConcat "bb" "aa") := by
  refine ⟨fun data => ⟨rfl, sha256_length _, HashData_length data, ?_⟩,
          fun h1 h2 => ⟨rfl, HashConcat_length h1 h2, ?_⟩,
          by decide, by decide⟩
  · exact hexEncode_chars _ (sha256_mem_lt _)
  · exact hexEncode_chars _ (sha256_mem_lt _)

/-! ## Claim theorems: construction edges -/

/-- C7: `NewMerkleTree` never returns an error; the empty list yields a tree
with no root and empty root hash; a single block yields root hash
`HashData(payload)`. -/
theorem newMerkleTree_total_edges :
    (∀ blocks, (NewMerkleTree blocks).isOk = true) ∧
    ((newTree []).root = none ∧ (newTree []).rootHash = "") ∧
    (∀ b : DataBlock, (newTree [b]).rootHash = HashData b.encryptedData) := by
  refine ⟨fun blocks => ?_, ⟨rfl, rfl⟩, fun b => rfl⟩
  cases blocks <;> rfl

/-- A 3-node level builds the tree `node (node x y) (node z z)`: the odd node
is paired with a duplicate of itself. -/
theorem buildTreeFuel_step (fuel : Nat) (a b : MNode) (rest : List MNode) :
    buildTreeFuel (fuel + 1) (a :: b :: rest) =
      buildTreeFuel fuel (pairUp (evenize (a :: b :: rest))) := rfl

theorem buildTreeFuel_single (fuel : Nat) (n : MNode) : buildTreeFuel fuel [n] = some n := by
  simp [buildTreeFuel]

theorem pairUp_cons (a b : MNode) (rest : List MNode) :
    pairUp (a :: b :: rest) = MNode.node (HashConcat a.hash b.hash) a b :: pairUp rest := rfl

theorem pairUp_nil : pairUp ([] : List MNode) = [] := rfl

theorem evenize_two (a b : MNode) : evenize [a, b] = [a, b] := by simp [evenize]

theorem buildTree_three (x y z : MNode) :
    buildTree [x, y, z] =
      some (.node (HashConcat (HashConcat x.hash y.hash) (HashConcat z.hash z.hash))
        (.node (HashConcat x.hash y.hash) x y)
        (.node (HashConcat z.hash z.hash) z z)) := by
  have hev3 : evenize [x, y, z] = [x, y, z, z] := by simp [evenize]
  have h0 : buildTree [x, y, z] = buildTreeFuel 3 [x, y, z] := rfl
  rw [h0, buildTreeFuel_step, hev3, pairUp_cons, pairUp_cons, pairUp_nil,
    buildTreeFuel_step, evenize_two, pairUp_cons, pairUp_nil, buildTreeFuel_single]
  simp [MNode.hash]

/-- C6: the root of a 3-leaf tree is
`HashConcat (HashConcat h0 h1) (HashConcat h2 h2)` — the odd node is paired
with a duplicate of itself. -/
theorem threeLeaf_rootHash (b0 b1 b2 : DataBlock) :
    (newTree [b0, b1, b2]).rootHash =
      HashConcat
        (HashConcat (HashData b0.encryptedData) (HashData b1.encryptedData))
        (HashConcat (HashData b2.encryptedData) (HashData b2.encryptedData)) := by
  have hroot : (newTree [b0, b1, b2]).rootHash =
      (match buildTree (mkLeaves [b0, b1, b2]) with
        | some r => r.hash
        | none => "") := rfl
  rw [hroot]
  have hml : mkLeaves [b0, b1, b2] =
      [MNode.leaf (HashData b0.encryptedData) b0.encryptedData b0.id 0,
       MNode.leaf (HashData b1.encryptedData) b1.encryptedData b1.id 1,
       MNode.leaf (HashData b2.encryptedData) b2.encryptedData b2.id 2] := rfl
  rw [hml, buildTree_three]
  simp [MNode.hash]

/-- C9: the root hash is `""` iff the block list is empty; otherwise it equals
the hash stored at the root node. -/
theorem rootHash_invariant (blocks : List DataBlock) :
    ((newTree blocks).rootHash = "" ↔ blocks = []) ∧
    (∀ r, (newTree blocks).root = some r → (newTree blocks).rootHash = r.hash) := by
  cases blocks with
  | nil =>
    refine ⟨by simp [newTree_nil], ?_⟩
    intro r hr
    simp [newTree_nil] at hr
  | cons b rest =>
    have hne : mkLeaves (b :: rest) ≠ [] := by simp [mkLeaves, mkLeavesFrom]
    have hsome := buildTreeFuel_isSome (mkLeaves (b :: rest)).length
      (mkLeaves (b :: rest)) hne (le_refl _)
    obtain ⟨r, hr⟩ := Option.isSome_iff_exists.mp hsome
    have hroot : (newTree (b :: rest)).root = some r := by
      rw [newTree_cons]
      exact hr
    have hrh : (newTree (b :: rest)).rootHash = r.hash := by
      rw [newTree_cons]
      rw [show buildTree (mkLeaves (b :: rest)) = some r from hr]
    have hlen64 : r.hash.length = 64 := by
      refine buildTreeFuel_preserve (fun n => n.hash.length = 64) ?_ _ _ ?_ r hr
      · intro x y _ _
        exact HashConcat_length x.hash y.hash
      · intro n hn
        obtain ⟨b', j, _, hn'⟩ := mkLeavesFrom_mem 0 (b :: rest) n hn
        subst hn'
        exact HashData_length _
    refine ⟨?_, ?_⟩
    · rw [hrh]
      constructor
      · intro h
        rw [h] at hlen64
        simp at hlen64
      · intro h
        cases h
    · intro r' hr'
      rw [hroot] at hr'
      injection hr' with h
      subst h
      exact hrh

/-- C9 witness: at the four demo blocks the root hash equals the root node's
stored hash. -/
theorem rootHash_invariant_witness :
    (newTree diffBlocks).rootHash = (treeRoot (newTree diffBlocks)).hash :=
  (rootHash_invariant diffBlocks).2 (treeRoot (newTree diffBlocks)) (by decide)

/-! ## Claim theorems: proof verification error behaviour -/

/-- C4 counterexample: `VerifyProof` never returns an error on a non-empty
leaf list — there is no `MalformedProof` failure mode, contrary to the claim
that some structurally inconsistent proof makes it fail. -/
theorem verifyProof_no_malformed_error :
    ¬ ∃ (rootHash : String) (leaves : List String) (proof : List ProofNode),
        leaves ≠ [] ∧ (VerifyProof rootHash leaves proof).isOk = false := by
  rintro ⟨r, l, p, hne, h⟩
  cases l with
  | nil => exact hne rfl
  | cons a t => simp [VerifyProof, Except.isOk, Except.toBool] at h

/-- C4 amended: `VerifyProof` fails only on an empty leaf list (with the error
`"no leaf hashes provided"`); on any non-empty leaf list and any proof it
returns a boolean verdict. -/
theorem verifyProof_total_on_nonempty (rootHash : String) (leaves : List String)
    (proof : List ProofNode) :
    (leaves = [] → VerifyProof rootHash leaves proof = .error "no leaf hashes provided") ∧
    (leaves ≠ [] → ∃ b, VerifyProof rootHash leaves proof = .ok b) := by
  constructor
  · intro h
    subst h
    rfl
  · intro h
    cases leaves with
    | nil => exact absurd rfl h
    | cons a t => exact ⟨_, rfl⟩

/-- C4 witness: both branches at concrete inputs. -/
theorem verifyProof_total_on_nonempty_witness :
    VerifyProof "r" [] [] = .error "no leaf hashes provided" ∧
    ∃ b, VerifyProof "r" ["a"] [] = .ok b :=
  ⟨(verifyProof_total_on_nonempty "r" [] []).1 rfl,
   (verifyProof_total_on_nonempty "r" ["a"] []).2 (by simp)⟩

/-- C10: the verifier's verdict is invariant under permutation of the
supplied leaf-hash list (it sorts the hashes before reconstruction). -/
theorem verifyProof_perm_invariant (rootHash : String) (proof : List ProofNode)
    (l1 l2 : List String) (hperm : l1.Perm l2) :
    VerifyProof rootHash l1 proof = VerifyProof rootHash l2 proof := by
  have hsort : sortStrings l1 = sortStrings l2 := by
    apply List.eq_of_perm_of_sorted (r := fun a b => strLe a b = true)
    · exact (List.perm_insertionSort _ l1).trans
        (hperm.trans (List.perm_insertionSort _ l2).symm)
    · exact List.sorted_insertionSort _ l1
    · exact List.sorted_insertionSort _ l2
  cases l1 with
  | nil =>
    have h2 : l2 = [] := hperm.symm.eq_nil
    subst h2
    rfl
  | cons a t =>
    cases l2 with
    | nil => exact absurd (hperm.eq_nil) (by simp)
    | cons b s =>
      simp only [VerifyProof]
      rw [show sortStrings (a :: t) = sortStrings (b :: s) from hsort]

/-- C10 witness: two permutations of a two-hash list verify identically. -/
theorem verifyProof_perm_invariant_witness :
    VerifyProof "r" ["b", "a"] [] = VerifyProof "r" ["a", "b"] [] :=
  verifyProof_perm_invariant "r" [] ["b", "a"] ["a", "b"] (by decide)

/-! ## Claim theorems: proof generation error behaviour -/

/-- C3 counterexample: requesting one real leaf hash together with an
identifier matching no leaf does not fail — the unmatched identifier is
silently dropped. -/
theorem generateProof_partial_match_succeeds :
    (GenerateProof (newTree diffBlocks)
        [leafHashAt (newTree diffBlocks) 0, "nomatch"]).isOk = true ∧
    ((newTree diffBlocks).leaves.any fun l => l.hash == "nomatch") = false := by
  decide

theorem GenerateProof_some (root : MNode) (leaves : List MNode) (rh : String)
    (leafHashes : List String) :
    GenerateProof ⟨some root, leaves, rh⟩ leafHashes =
      if (leafHashes.filterMap fun h => leaves.find? fun leaf => leaf.hash == h).isEmpty then
        .error "no matching leaf nodes found"
      else
        .ok ((leafHashes.filterMap fun h => leaves.find? fun leaf => leaf.hash == h).foldl
          (fun acc leaf => (acc.1 ++ (getProofPath root leaf acc.2).1,
            (getProofPath root leaf acc.2).2)) ([], [])).1 := rfl

/-- C3 amended: `GenerateProof` fails with `"empty tree"` when the tree has no
root; otherwise it succeeds iff at least one requested hash matches some leaf
(failing with `"no matching leaf nodes found"` when none does, including the
empty request), silently dropping any unmatched requested identifiers. -/
theorem generateProof_error_contract (blocks : List DataBlock) (req : List String) :
    (blocks = [] → GenerateProof (newTree blocks) req = .error "empty tree") ∧
    (blocks ≠ [] →
      ((GenerateProof (newTree blocks) req).isOk = true ↔
        ∃ h ∈ req, ∃ l ∈ (newTree blocks).leaves, l.hash = h)) := by
  constructor
  · intro h
    subst h
    rfl
  · intro hne
    cases blocks with
    | nil => exact absurd rfl hne
    | cons b rest =>
      have hne' : mkLeaves (b :: rest) ≠ [] := by simp [mkLeaves, mkLeavesFrom]
      have hsome := buildTreeFuel_isSome (mkLeaves (b :: rest)).length
        (mkLeaves (b :: rest)) hne' (le_refl _)
      obtain ⟨r, hr⟩ := Option.isSome_iff_exists.mp hsome
      have htree : newTree (b :: rest) = ⟨some r, mkLeaves (b :: rest), r.hash⟩ := by
        rw [newTree_cons, show buildTree (mkLeaves (b :: rest)) = some r from hr]
      rw [htree, GenerateProof_some]
      by_cases hemp :
          (req.filterMap fun h =>
            (mkLeaves (b :: rest)).find? fun leaf => leaf.hash == h) = []
      · rw [if_pos (by simpa [List.isEmpty_iff] using hemp)]
        refine iff_of_false (by simp [Except.isOk, Except.toBool]) ?_
        rintro ⟨h, hh, l, hl, hlh⟩
        have hfnone := (List.filterMap_eq_nil_iff.mp hemp) h hh
        rw [List.find?_eq_none] at hfnone
        exact absurd hlh (by simpa using hfnone l hl)
      · rw [if_neg (by simpa [List.isEmpty_iff] using hemp)]
        refine iff_of_true (by simp [Except.isOk, Except.toBool]) ?_
        obtain ⟨x, hx⟩ := List.exists_mem_of_ne_nil _ hemp
        obtain ⟨h, hh, hfind⟩ := List.mem_filterMap.mp hx
        refine ⟨h, hh, x, List.mem_of_find?_eq_some hfind, ?_⟩
        have := List.find?_some hfind
        simpa using this

/-- C3 witness: the empty-tree branch, and success in the presence of an
unmatched identifier. -/
theorem generateProof_error_contract_witness :
    GenerateProof (newTree []) ["x"] = .error "empty tree" ∧
    (GenerateProof (newTree diffBlocks)
      [leafHashAt (newTree diffBlocks) 0, "nomatch"]).isOk = true :=
  ⟨(generateProof_error_contract [] ["x"]).1 rfl,
   ((generateProof_error_contract diffBlocks
        [leafHashAt (newTree diffBlocks) 0, "nomatch"]).2 (by decide)).mpr
      ⟨leafHashAt (newTree diffBlocks) 0, by decide,
       (newTree diffBlocks).leaves.getD 0 defaultLeaf, by decide, by decide⟩⟩

/-! ## Claim theorems: tree diffing -/

theorem diffNodesFuel_none_some (fuel : Nat) (n2 : MNode) :
    diffNodesFuel fuel none (some n2) = [⟨n2.hash, n2.isLeaf⟩] := by
  simp [diffNodesFuel]

theorem diffNodesFuel_some_none (fuel : Nat) (n1 : MNode) :
    diffNodesFuel fuel (some n1) none = [⟨n1.hash, n1.isLeaf⟩] := by
  simp [diffNodesFuel]

theorem DiffTrees_noroot_root (leaves1 : List MNode) (rh1 : String) (r : MNode)
    (leaves2 : List MNode) (rh2 : String) :
    DiffTrees (some ⟨none, leaves1, rh1⟩) (some ⟨some r, leaves2, rh2⟩) =
      .ok [⟨r.hash, r.isLeaf⟩] := by
  have h0 : DiffTrees (some (⟨none, leaves1, rh1⟩ : MerkleTree))
      (some (⟨some r, leaves2, rh2⟩ : MerkleTree)) =
      .ok (diffNodesFuel (((none : Option MNode).elim 0 MNode.size) +
        ((some r).elim 0 MNode.size)) none (some r)) := rfl
  rw [h0, diffNodesFuel_none_some]

theorem DiffTrees_root_noroot (r : MNode) (leaves1 : List MNode) (rh1 : String)
    (leaves2 : List MNode) (rh2 : String) :
    DiffTrees (some ⟨some r, leaves1, rh1⟩) (some ⟨none, leaves2, rh2⟩) =
      .ok [⟨r.hash, r.isLeaf⟩] := by
  have h0 : DiffTrees (some (⟨some r, leaves1, rh1⟩ : MerkleTree))
      (some (⟨none, leaves2, rh2⟩ : MerkleTree)) =
      .ok (diffNodesFuel (((some r).elim 0 MNode.size) +
        ((none : Option MNode).elim 0 MNode.size)) (some r) none) := rfl
  rw [h0, diffNodesFuel_some_none]

/-- A level of two or more nodes never builds to a bare leaf. -/
theorem buildTreeFuel_internal : (fuel : Nat) → (l : List MNode) → 2 ≤ l.length →
    ∀ r, buildTreeFuel fuel l = some r → r.isLeaf = false
  | _, [], h, _ => by simp at h
  | _, [_], h, _ => by simp at h
  | 0, _ :: _ :: _, _, r => by
      intro hr
      simp [buildTreeFuel] at hr
  | fuel + 1, a :: b :: rest, _, r => by
      intro hr
      refine buildTreeFuel_preserve (fun n => n.isLeaf = false)
        (fun _ _ _ _ => rfl) fuel _ ?_ r (by simpa [buildTreeFuel] using hr)
      intro m hm
      obtain ⟨x, y, _, _, hm'⟩ := pairUp_shape _ m hm
      subst hm'
      rfl

/-- C5 counterexample: diffing the empty tree against a 2-leaf tree reports a
single descriptor — the non-empty tree's root, an internal node — not its two
leaves. -/
theorem diffTrees_reports_root_only :
    (DiffTrees (some (newTree [])) (some (newTree diffBlocks))).toOption =
      some [⟨(newTree diffBlocks).rootHash, false⟩] ∧
    (newTree diffBlocks).leaves.length = 2 ∧
    (⟨leafHashAt (newTree diffBlocks) 0, true⟩ : DiffNode) ∉
      [(⟨(newTree diffBlocks).rootHash, false⟩ : DiffNode)] := by
  decide

/-- C5 amended: when one tree has no root and the other is non-empty,
`DiffTrees` reports exactly one differing descriptor, carrying the non-empty
tree's root hash, flagged as a leaf only when that tree has exactly one
leaf — so all leaves are reported only in the single-leaf case. -/
theorem diffTrees_empty_vs_nonempty (blocks : List DataBlock) (hne : blocks ≠ []) :
    DiffTrees (some (newTree [])) (some (newTree blocks)) =
      .ok [⟨(newTree blocks).rootHash, blocks.length == 1⟩] ∧
    DiffTrees (some (newTree blocks)) (some (newTree [])) =
      .ok [⟨(newTree blocks).rootHash, blocks.length == 1⟩] := by
  cases blocks with
  | nil => exact absurd rfl hne
  | cons b rest =>
    have hne' : mkLeaves (b :: rest) ≠ [] := by simp [mkLeaves, mkLeavesFrom]
    have hsome := buildTreeFuel_isSome (mkLeaves (b :: rest)).length
      (mkLeaves (b :: rest)) hne' (le_refl _)
    obtain ⟨r, hr⟩ := Option.isSome_iff_exists.mp hsome
    have htree : newTree (b :: rest) = ⟨some r, mkLeaves (b :: rest), r.hash⟩ := by
      rw [newTree_cons, show buildTree (mkLeaves (b :: rest)) = some r from hr]
    have hisleaf : r.isLeaf = ((b :: rest).length == 1) := by
      cases rest with
      | nil =>
        have hone : mkLeaves [b] =
            [MNode.leaf (HashData b.encryptedData) b.encryptedData b.id 0] := rfl
        rw [hone] at hr
        rw [buildTreeFuel_single] at hr
        injection hr with h
        subst h
        rfl
      | cons b2 rest2 =>
        have hlen : 2 ≤ (mkLeaves (b :: b2 :: rest2)).length := by
          have h := mkLeavesFrom_length 0 (b :: b2 :: rest2)
          simp only [List.length_cons] at h
          simp only [mkLeaves]
          omega
        rw [buildTreeFuel_internal _ _ hlen r hr]
        have hl2 : (b :: b2 :: rest2).length = rest2.length + 2 := by simp
        rw [hl2]
        symm
        rw [beq_eq_false_iff_ne]
        omega
    constructor
    · rw [newTree_nil, htree, DiffTrees_noroot_root]
      simp [hisleaf]
    · rw [newTree_nil, htree, DiffTrees_root_noroot]
      simp [hisleaf]

/-- C5 witness: both orientations at the concrete 2-leaf tree. -/
theorem diffTrees_empty_vs_nonempty_witness :
    DiffTrees (some (newTree [])) (some (newTree diffBlocks)) =
      .ok [⟨(newTree diffBlocks).rootHash, diffBlocks.length == 1⟩] ∧
    DiffTrees (some (newTree diffBlocks)) (some (newTree [])) =
      .ok [⟨(newTree diffBlocks).rootHash, diffBlocks.length == 1⟩] :=
  diffTrees_empty_vs_nonempty diffBlocks (by decide)

/-! ## Claim theorems: multi-leaf round trip (the documented source defect) -/

/-- C1 failing input: on the 2-block tree `[data1, data2]` with both leaf
hashes requested, proof generation succeeds but verification of the generated
proof against the tree's own root returns `false` — the multi-leaf verifier
sorts the supplied leaf hashes and rebuilds a tree from them alone, losing the
original pairing order. -/
theorem multiLeafRoundtrip_fails_on_pair :
    (GenerateProof (newTree pairBlocks)
        [leafHashAt (newTree pairBlocks) 0, leafHashAt (newTree pairBlocks) 1]).isOk = true ∧
    (VerifyProof (newTree pairBlocks).rootHash
        [leafHashAt (newTree pairBlocks) 0, leafHashAt (newTree pairBlocks) 1]
        ((GenerateProof (newTree pairBlocks)
            [leafHashAt (newTree pairBlocks) 0,
             leafHashAt (newTree pairBlocks) 1]).toOption.getD [])).toOption =
      some false := by
  decide

/-! ## Single-leaf round trip: subtree and parent-search lemmas -/

theorem occurs_trans {a b c : MNode} (hab : Occurs a b) (hbc : Occurs b c) : Occurs a c := by
  induction hbc with
  | refl => exact hab
  | left _ ih => exact Occurs.left ih
  | right _ ih => exact Occurs.right ih

theorem size_pos (t : MNode) : 1 ≤ t.size := by
  cases t with
  | leaf h d b i => simp [MNode.size]
  | node h l r =>
      simp only [MNode.size]
      omega


theorem occurs_size {x t : MNode} (h : Occurs x t) : x.size ≤ t.size := by
  induction h with
  | refl => exact le_refl _
  | left _ ih => simp only [MNode.size]; omega
  | right _ ih => simp only [MNode.size]; omega

theorem occurs_eq_of_size {x t : MNode} (h : Occurs x t) (hs : t.size ≤ x.size) : x = t := by
  cases h with
  | refl => rfl
  | left hocc =>
      exfalso
      have h1 := occurs_size hocc
      have h2 := size_pos x
      simp only [MNode.size] at hs
      omega
  | right hocc =>
      exfalso
      have h1 := occurs_size hocc
      have h2 := size_pos x
      simp only [MNode.size] at hs
      omega

theorem occurs_wellHashed {q t : MNode} (hocc : Occurs q t) (hwh : WellHashed t) :
    WellHashed q := by
  induction hocc with
  | refl => exact hwh
  | left _ ih =>
      simp only [WellHashed] at hwh
      exact ih hwh.2.1
  | right _ ih =>
      simp only [WellHashed] at hwh
      exact ih hwh.2.2

theorem findParentRecursive_leaf (h : String) (d : List Nat) (bid : String) (i : Nat)
    (target : MNode) : findParentRecursive (.leaf h d bid i) target = none := rfl

theorem findParentRecursive_node (h : String) (l r target : MNode) :
    findParentRecursive (.node h l r) target =
      if l = target ∨ r = target then some (.node h l r)
      else
        match findParentRecursive l target with
        | some p => some p
        | none => findParentRecursive r target := rfl

theorem findParentRecursive_sound : (t target : MNode) → ∀ q,
    findParentRecursive t target = some q →
    Occurs q t ∧ ∃ h l r, q = MNode.node h l r ∧ (l = target ∨ r = target)
  | .leaf _ _ _ _, target, q => by
      intro hq
      rw [findParentRecursive_leaf] at hq
      exact Option.noConfusion hq
  | .node h l r, target, q => by
      intro hq
      rw [findParentRecursive_node] at hq
      by_cases hc : (l = target ∨ r = target)
      · rw [if_pos hc] at hq
        injection hq with h'
        subst h'
        exact ⟨Occurs.refl _, h, l, r, rfl, hc⟩
      · rw [if_neg hc] at hq
        cases heq : findParentRecursive l target with
        | some p =>
            simp only [heq, Option.some.injEq] at hq
            subst hq
            obtain ⟨ho, hsh⟩ := findParentRecursive_sound l target p heq
            exact ⟨Occurs.left ho, hsh⟩
        | none =>
            simp only [heq] at hq
            obtain ⟨ho, hsh⟩ := findParentRecursive_sound r target q hq
            exact ⟨Occurs.right ho, hsh⟩

theorem findParentRecursive_complete : (t target : MNode) → Occurs target t →
    target ≠ t → (findParentRecursive t target).isSome = true
  | .leaf _ _ _ _, target, hocc, hne => by
      cases hocc with
      | refl => exact absurd rfl hne
  | .node h l r, target, hocc, hne => by
      rw [findParentRecursive_node]
      by_cases hc : (l = target ∨ r = target)
      · rw [if_pos hc]
        rfl
      · rw [if_neg hc]
        obtain ⟨hcl, hcr⟩ := not_or.mp hc
        cases hocc with
        | refl => exact absurd rfl hne
        | left hol =>
            have hl := findParentRecursive_complete l target hol (fun he => hcl he.symm)
            obtain ⟨p, hp⟩ := Option.isSome_iff_exists.mp hl
            simp [hp]
        | right hor =>
            cases heq : findParentRecursive l target with
            | some p => simp [heq]
            | none =>
                have hrr := findParentRecursive_complete r target hor (fun he => hcr he.symm)
                simpa [heq] using hrr

theorem mem_evenize (l : List MNode) (x : MNode) (hx : x ∈ l) : x ∈ evenize l := by
  cases l with
  | nil => simp at hx
  | cons n rest =>
    simp only [evenize]
    by_cases hcond : (((n :: rest).length % 2 == 1) = true)
    · rw [if_pos hcond]
      exact List.mem_append_left _ hx
    · rw [if_neg hcond]
      exact hx

theorem mem_pairUp_occurs : (l : List MNode) → l.length % 2 = 0 → ∀ x ∈ l,
    ∃ m ∈ pairUp l, Occurs x m
  | [], _, x, hx => absurd hx (by simp)
  | [_], hpar, _, _ => by simp at hpar
  | a :: b :: rest, hpar, x, hx => by
      simp only [List.mem_cons] at hx
      rcases hx with h1 | h1 | h1
      · subst h1
        exact ⟨.node (HashConcat x.hash b.hash) x b, by rw [pairUp_cons]; simp,
          Occurs.left (Occurs.refl x)⟩
      · subst h1
        exact ⟨.node (HashConcat a.hash x.hash) a x, by rw [pairUp_cons]; simp,
          Occurs.right (Occurs.refl x)⟩
      · have hrest : rest.length % 2 = 0 := by
          simp only [List.length_cons] at hpar
          omega
        obtain ⟨m, hm, ho⟩ := mem_pairUp_occurs rest hrest x h1
        exact ⟨m, by rw [pairUp_cons]; exact List.mem_cons_of_mem _ hm, ho⟩

theorem buildTreeFuel_occurs : (fuel : Nat) → (l : List MNode) → l.length ≤ fuel →
    ∀ x ∈ l, ∀ r, buildTreeFuel fuel l = some r → Occurs x r
  | _, [], _, x, hx, _, _ => absurd hx (by simp)
  | fuel, [n], _, x, hx, r, hr => by
      rw [buildTreeFuel_single] at hr
      injection hr with h
      subst h
      simp only [List.mem_singleton] at hx
      subst hx
      exact Occurs.refl _
  | 0, _ :: _ :: _, hlen, x, hx, r, hr => by simp at hlen
  | fuel + 1, a :: b :: rest, hlen, x, hx, r, hr => by
      rw [buildTreeFuel_step] at hr
      have heven : (evenize (a :: b :: rest)).length % 2 = 0 := by
        rw [evenize_length]
        omega
      obtain ⟨m, hm, ho⟩ := mem_pairUp_occurs _ heven x (mem_evenize _ x hx)
      have hlen2 : (pairUp (evenize (a :: b :: rest))).length ≤ fuel := by
        rw [pairUp_length, evenize_length]
        simp only [List.length_cons] at hlen ⊢
        omega
      exact occurs_trans ho (buildTreeFuel_occurs fuel _ hlen2 m hm r hr)

theorem buildTree_wellHashed (fuel : Nat) (l : List MNode)
    (hl : ∀ n ∈ l, WellHashed n) (r : MNode) (hr : buildTreeFuel fuel l = some r) :
    WellHashed r :=
  buildTreeFuel_preserve WellHashed
    (fun a b ha hb => by
      simp only [WellHashed]
      exact ⟨by simp, ha, hb⟩) fuel l hl r hr

theorem fullWalkPath_succ (root : MNode) (fuel : Nat) (current : MNode) :
    fullWalkPath root (fuel + 1) current =
      if current = root then []
      else
        match findParent root current with
        | none => []
        | some (.leaf _ _ _ _) => []
        | some (.node ph pl pr) =>
            ⟨(if pl = current then pr else pl).hash, !decide (pl = current)⟩ ::
              fullWalkPath root fuel (.node ph pl pr) := rfl

/-- One step of the verifier's single-leaf fold, on a literal proof entry. -/
theorem foldl_walk_cons (entryh : String) (b : Bool) (rest : List ProofNode) (cur : String) :
    ((⟨entryh, b⟩ : ProofNode) :: rest).foldl
      (fun c pn => if pn.isLeft then HashConcat pn.hash c else HashConcat c pn.hash) cur =
      rest.foldl (fun c pn => if pn.isLeft then HashConcat pn.hash c else HashConcat c pn.hash)
        (if b then HashConcat entryh cur else HashConcat cur entryh) := by
  rw [List.foldl_cons]

/-- Folding the suppression-free walk from any occurrence of `current` in a
well-hashed tree recomputes the root hash. -/
theorem fullWalkPath_correct : (fuel : Nat) → (current root : MNode) →
    Occurs current root → WellHashed root → root.size ≤ fuel + current.size →
    (fullWalkPath root fuel current).foldl
      (fun cur pn => if pn.isLeft then HashConcat pn.hash cur else HashConcat cur pn.hash)
      current.hash = root.hash
  | 0, current, root, hocc, _, hfuel => by
      have h2 : current = root := occurs_eq_of_size hocc (by omega)
      subst h2
      simp [fullWalkPath]
  | fuel + 1, current, root, hocc, hwh, hfuel => by
      by_cases hceq : current = root
      · subst hceq
        simp [fullWalkPath]
      · have hfp := findParentRecursive_complete root current hocc hceq
        obtain ⟨q, hq⟩ := Option.isSome_iff_exists.mp hfp
        obtain ⟨hqocc, ph, pl, pr, hqeq, hchild⟩ := findParentRecursive_sound root current q hq
        subst hqeq
        have hwq := occurs_wellHashed hqocc hwh
        simp only [WellHashed] at hwq
        obtain ⟨hph, _, _⟩ := hwq
        have hpath : fullWalkPath root (fuel + 1) current =
            ⟨(if pl = current then pr else pl).hash, !decide (pl = current)⟩ ::
              fullWalkPath root fuel (.node ph pl pr) := by
          rw [fullWalkPath_succ, if_neg hceq,
            show findParent root current = some (MNode.node ph pl pr) from hq]
        rw [hpath, foldl_walk_cons]
        by_cases hleft : pl = current
        · rw [show (!decide (pl = current)) = false from by simp [hleft],
            show (if pl = current then pr else pl) = pr from if_pos hleft]
          simp only [Bool.false_eq_true, if_false]
          rw [show HashConcat current.hash pr.hash = (MNode.node ph pl pr).hash from by
            simp [MNode.hash, hph, hleft]]
          exact fullWalkPath_correct fuel (.node ph pl pr) root hqocc hwh (by
            have hsz : pl.size = current.size := by rw [hleft]
            have hpr := size_pos pr
            simp only [MNode.size]
            omega)
        · have hright : pr = current := hchild.resolve_left hleft
          rw [show (!decide (pl = current)) = true from by simp [hleft],
            show (if pl = current then pr else pl) = pl from if_neg hleft]
          simp only [if_true]
          rw [show HashConcat pl.hash current.hash = (MNode.node ph pl pr).hash from by
            simp [MNode.hash, hph, hright]]
          exact fullWalkPath_correct fuel (.node ph pl pr) root hqocc hwh (by
            have hsz : pr.size = current.size := by rw [hright]
            have hpl := size_pos pl
            simp only [MNode.size]
            omega)

theorem sortStrings_singleton (x : String) : sortStrings [x] = [x] := rfl

theorem reconstructRoot_single (x : String) (p : List ProofNode) :
    reconstructRoot [x] p =
      p.foldl (fun currentHash pn => if pn.isLeft then HashConcat pn.hash currentHash
        else HashConcat currentHash pn.hash) x := rfl

/-- C2: single-leaf round trip.  For any block list, any leaf index, and the
leaf `GenerateProof` selects for that leaf's hash, if no sibling hash repeats
along the walk (the `visited` filter suppresses nothing, expressed as
`getProofPath` agreeing with the suppression-free `fullWalkPath` — true
whenever the concrete hashes along the path do not collide), then the
generated single-leaf proof verifies against the tree's root hash. -/
theorem singleLeafRoundtrip (blocks : List DataBlock) (i : Nat) (hi : i < blocks.length)
    (hfresh : (getProofPath (treeRoot (newTree blocks))
        (foundLeaf (newTree blocks) (leafHashAt (newTree blocks) i)) []).1 =
      fullWalkPath (treeRoot (newTree blocks)) (treeRoot (newTree blocks)).size
        (foundLeaf (newTree blocks) (leafHashAt (newTree blocks) i))) :
    ∃ p, GenerateProof (newTree blocks) [leafHashAt (newTree blocks) i] = .ok p ∧
      VerifyProof (newTree blocks).rootHash [leafHashAt (newTree blocks) i] p = .ok true := by
  cases blocks with
  | nil => simp at hi
  | cons b rest =>
    have hne' : mkLeaves (b :: rest) ≠ [] := by simp [mkLeaves, mkLeavesFrom]
    have hsome := buildTreeFuel_isSome (mkLeaves (b :: rest)).length
      (mkLeaves (b :: rest)) hne' (le_refl _)
    obtain ⟨r, hr⟩ := Option.isSome_iff_exists.mp hsome
    have htree : newTree (b :: rest) = ⟨some r, mkLeaves (b :: rest), r.hash⟩ := by
      rw [newTree_cons, show buildTree (mkLeaves (b :: rest)) = some r from hr]
    have hi' : i < (mkLeaves (b :: rest)).length := by
      rw [show mkLeaves (b :: rest) = mkLeavesFrom 0 (b :: rest) from rfl,
        mkLeavesFrom_length]
      exact hi
    have hmem : (mkLeaves (b :: rest)).getD i defaultLeaf ∈ mkLeaves (b :: rest) := by
      rw [List.getD_eq_getElem _ _ hi']
      exact List.getElem_mem _
    have hfsome : ((mkLeaves (b :: rest)).find? fun n =>
        n.hash == ((mkLeaves (b :: rest)).getD i defaultLeaf).hash).isSome = true :=
      List.find?_isSome.mpr ⟨_, hmem, by simp⟩
    obtain ⟨ℓ, hfind⟩ := Option.isSome_iff_exists.mp hfsome
    have hlmem : ℓ ∈ mkLeaves (b :: rest) := List.mem_of_find?_eq_some hfind
    have hlhash : ℓ.hash = ((mkLeaves (b :: rest)).getD i defaultLeaf).hash := by
      simpa using List.find?_some hfind
    rw [htree] at hfresh ⊢
    have hlh : leafHashAt (⟨some r, mkLeaves (b :: rest), r.hash⟩ : MerkleTree) i =
        ((mkLeaves (b :: rest)).getD i defaultLeaf).hash := rfl
    rw [hlh] at hfresh ⊢
    have htr : treeRoot (⟨some r, mkLeaves (b :: rest), r.hash⟩ : MerkleTree) = r := rfl
    rw [htr] at hfresh
    have hfound : foundLeaf (⟨some r, mkLeaves (b :: rest), r.hash⟩ : MerkleTree)
        (((mkLeaves (b :: rest)).getD i defaultLeaf).hash) = ℓ := by
      rw [foundLeaf, show (⟨some r, mkLeaves (b :: rest), r.hash⟩ : MerkleTree).leaves =
        mkLeaves (b :: rest) from rfl, hfind]
      rfl
    rw [hfound] at hfresh
    have hfm : ([((mkLeaves (b :: rest)).getD i defaultLeaf).hash].filterMap fun h =>
        (mkLeaves (b :: rest)).find? fun leaf => leaf.hash == h) = [ℓ] := by
      simp only [List.filterMap_cons, List.filterMap_nil, hfind]
    refine ⟨(getProofPath r ℓ []).1, ?_, ?_⟩
    · rw [GenerateProof_some, hfm, if_neg (by simp)]
      simp
    · have hocc : Occurs ℓ r :=
        buildTreeFuel_occurs (mkLeaves (b :: rest)).length _ (le_refl _) ℓ hlmem r hr
      have hwh : WellHashed r := by
        refine buildTree_wellHashed _ _ ?_ r hr
        intro n hn
        obtain ⟨b', j, _, hn'⟩ := mkLeavesFrom_mem 0 (b :: rest) n hn
        subst hn'
        simp [WellHashed]
      have hrh : (⟨some r, mkLeaves (b :: rest), r.hash⟩ : MerkleTree).rootHash = r.hash := rfl
      rw [hrh]
      have hv : VerifyProof r.hash [((mkLeaves (b :: rest)).getD i defaultLeaf).hash]
          (getProofPath r ℓ []).1 =
          .ok (reconstructRoot
            (sortStrings [((mkLeaves (b :: rest)).getD i defaultLeaf).hash])
            (getProofPath r ℓ []).1 == r.hash) := rfl
      rw [hv, sortStrings_singleton, reconstructRoot_single, hfresh, ← hlhash]
      rw [fullWalkPath_correct r.size ℓ r hocc hwh (by
        have := size_pos ℓ
        omega)]
      simp

/-- C2 witness: the 3-block tree (exercising the odd-node duplication), leaf
index 2. -/
theorem singleLeafRoundtrip_witness :
    ∃ p, GenerateProof (newTree demo3) [leafHashAt (newTree demo3) 2] = .ok p ∧
      VerifyProof (newTree demo3).rootHash [leafHashAt (newTree demo3) 2] p = .ok true :=
  singleLeafRoundtrip demo3 2 (by decide) (by decide)

end MerkleSync
